import Mathlib

/-!
# Verification of `datahub/utilities/file_backed_collections.py`

Shallow embedding of the file-backed collections module: a write-back LRU
cache (Python `OrderedDict`) layered over a SQLite table, plus an append-only
list adapter and a reference-counted connection registry.

Modelling conventions:
* The in-memory `OrderedDict` cache is a `List (String × V)` whose *front* is
  the least-recently-used end (`popitem(last=False)` pops the head) and whose
  *back* is the most-recently-used end (`move_to_end` appends at the back).
  Assignment `od[key] = value` on an existing key updates the value **in
  place**, leaving the key's position unchanged, exactly as Python's
  `OrderedDict` does; a new key is appended at the back.
* The SQLite table is a `List (String × B × List B)` of rows
  (key, value blob, extra-column blobs).  `INSERT OR REPLACE` replaces the
  row with the conflicting primary key; `DELETE WHERE key = ?` removes it;
  `SELECT` order is irrelevant to the properties proved here, which only
  depend on the row multiset.
* Python exceptions (`KeyError`, `IndexError`) are modelled by
  `Except Err` with `Err.notFound` / `Err.outOfRange`.
* Machine integers: all counts are `Nat`; reference counts in the registry
  are `Int` because Python lets them go negative on misuse.
-/

/-- Errors surfaced by the collections: `KeyError` (point lookup / delete on
a key absent from both cache and store) and `IndexError` (list index outside
`[0, len)`). -/
inductive Err where
  | notFound : Err
  | outOfRange : Err
deriving DecidableEq, Repr

/-! ## Association-list helpers

These model Python `dict` / `OrderedDict` access and the keyed SQLite table.
-/

/-- `d[k]` as an option: first entry with key `k`. -/
def lookupKey (k : String) : List (String × α) → Option α
  | [] => none
  | (k', v) :: rest => if k' = k then some v else lookupKey k rest

/-- `k in d`. -/
def containsKey (k : String) (l : List (String × α)) : Bool :=
  (lookupKey k l).isSome

/-- `d[k] = v` on an ordered dict: update the existing entry **in place**
(keeping its position) if the key is present, otherwise append at the
most-recently-used (back) end.  Also models SQLite `INSERT OR REPLACE`,
which replaces the row carrying the conflicting primary key. -/
def assocSet (k : String) (v : α) : List (String × α) → List (String × α)
  | [] => [(k, v)]
  | (k', v') :: rest =>
      if k' = k then (k, v) :: rest else (k', v') :: assocSet k v rest

/-- `del d[k]` / `DELETE FROM t WHERE key = ?`: drop every entry with key
`k` (keys are unique in a dict and in a primary-keyed table, so this is the
single matching entry). -/
def removeKey (k : String) : List (String × α) → List (String × α)
  | [] => []
  | (k', v') :: rest =>
      if k' = k then removeKey k rest else (k', v') :: removeKey k rest

@[simp] theorem lookupKey_nil (k : String) : lookupKey k ([] : List (String × α)) = none := rfl

@[simp] theorem lookupKey_cons (k k' : String) (v : α) (rest : List (String × α)) :
    lookupKey k ((k', v) :: rest) = if k' = k then some v else lookupKey k rest := rfl

@[simp] theorem containsKey_nil (k : String) : containsKey k ([] : List (String × α)) = false := rfl

theorem containsKey_cons (k k' : String) (v : α) (rest : List (String × α)) :
    containsKey k ((k', v) :: rest) = if k' = k then true else containsKey k rest := by
  by_cases h : k' = k <;> simp [containsKey, lookupKey, h]

@[simp] theorem assocSet_nil (k : String) (v : α) :
    assocSet k v ([] : List (String × α)) = [(k, v)] := rfl

@[simp] theorem removeKey_nil (k : String) : removeKey k ([] : List (String × α)) = [] := rfl

/-- Looking up the key just set finds the new value. -/
theorem lookupKey_assocSet_self (k : String) (v : α) (l : List (String × α)) :
    lookupKey k (assocSet k v l) = some v := by
  induction l with
  | nil => simp [lookupKey]
  | cons p rest ih =>
      obtain ⟨k', v'⟩ := p
      by_cases h : k' = k <;> simp [assocSet, h, lookupKey, ih]

/-- Setting one key does not change the lookup of another. -/
theorem lookupKey_assocSet_ne (k k' : String) (hne : k' ≠ k) (v : α) (l : List (String × α)) :
    lookupKey k (assocSet k' v l) = lookupKey k l := by
  induction l with
  | nil => simp [lookupKey, hne]
  | cons p rest ih =>
      obtain ⟨k₀, v₀⟩ := p
      by_cases h : k₀ = k'
      · subst h
        simp [assocSet, lookupKey, hne, ih]
      · simp [assocSet, h, lookupKey, ih]

/-- A removed key is no longer found. -/
theorem lookupKey_removeKey_self (k : String) (l : List (String × α)) :
    lookupKey k (removeKey k l) = none := by
  induction l with
  | nil => simp
  | cons p rest ih =>
      obtain ⟨k', v'⟩ := p
      by_cases h : k' = k <;> simp [removeKey, h, lookupKey, ih]

/-- Removing one key does not change the lookup of another. -/
theorem lookupKey_removeKey_ne (k k' : String) (hne : k' ≠ k) (l : List (String × α)) :
    lookupKey k (removeKey k' l) = lookupKey k l := by
  induction l with
  | nil => simp
  | cons p rest ih =>
      obtain ⟨k₀, v₀⟩ := p
      by_cases h : k₀ = k'
      · subst h
        simp [removeKey, lookupKey, hne, ih]
      · simp [removeKey, h, lookupKey, ih]

/-- `assocSet` preserves the key list when the key is already present. -/
theorem map_fst_assocSet_of_contains (k : String) (v : α) (l : List (String × α))
    (h : containsKey k l = true) :
    (assocSet k v l).map Prod.fst = l.map Prod.fst := by
  induction l with
  | nil => simp [containsKey, lookupKey] at h
  | cons p rest ih =>
      obtain ⟨k', v'⟩ := p
      by_cases hk : k' = k
      · subst hk
        simp [assocSet]
      · simp [containsKey_cons, hk] at h
        simp [assocSet, hk, ih h]

/-- `assocSet` of a fresh key appends it at the back. -/
theorem assocSet_of_not_contains (k : String) (v : α) (l : List (String × α))
    (h : containsKey k l = false) :
    assocSet k v l = l ++ [(k, v)] := by
  induction l with
  | nil => simp
  | cons p rest ih =>
      obtain ⟨k', v'⟩ := p
      by_cases hk : k' = k
      · subst hk
        simp [containsKey_cons] at h
      · simp [containsKey_cons, hk] at h
        simp [assocSet, hk, ih h]

theorem containsKey_iff_mem_map_fst (k : String) (l : List (String × α)) :
    containsKey k l = true ↔ k ∈ l.map Prod.fst := by
  induction l with
  | nil => simp [containsKey]
  | cons p rest ih =>
      obtain ⟨k', v'⟩ := p
      by_cases h : k' = k
      · subst h
        simp [containsKey_cons]
      · simp [containsKey_cons, h, ih]
        intro h'
        exact absurd h'.symm h

theorem lookupKey_isSome_iff_mem (k : String) (l : List (String × α)) :
    (lookupKey k l).isSome ↔ k ∈ l.map Prod.fst := by
  rw [← containsKey_iff_mem_map_fst]
  simp [containsKey]

theorem lookupKey_eq_none_iff (k : String) (l : List (String × α)) :
    lookupKey k l = none ↔ k ∉ l.map Prod.fst := by
  rw [← lookupKey_isSome_iff_mem]
  simp [Option.isSome_iff_exists]
  constructor
  · intro h v hv
    rw [h] at hv
    cases hv
  · intro h
    cases he : lookupKey k l with
    | none => rfl
    | some v => exact absurd he (h v)

/-! ## `FileBackedDict`

Embeds the class `FileBackedDict` (file_backed_collections.py, lines
112-286).  A dict instance is a cache (ordered, LRU at the front) plus the
rows of its SQLite table; the construction-time configuration (serializer,
deserializer, extra-column functions, cache sizes) is a separate record,
passed to each operation, matching the dataclass fields fixed at
`__post_init__` time.  `V` is the value type `_VT`; `B` is the SQLite blob
type (`SqliteValue`), kept abstract. -/

/-- Construction-time configuration of a `FileBackedDict` (the dataclass
fields `serializer`, `deserializer`, `extra_columns`, `cache_max_size`,
`cache_eviction_batch_size`).  Extra columns are kept as an ordered list of
value-to-blob functions — the Python `dict` of column name to function
preserves insertion order, and column names only matter for SQL text. -/
structure FBCfg (V B : Type) where
  serializer : V → B
  deserializer : B → V
  extraColumns : List (V → B)
  cacheMaxSize : Nat
  cacheEvictionBatchSize : Nat

/-- State of a `FileBackedDict`: the `_active_object_cache` (front =
least-recently-used, back = most-recently-used) and the rows of its SQLite
table (key, value blob, extra-column blobs). -/
structure FBDict (V B : Type) where
  cache : List (String × V)
  store : List (String × B × List B)

/-- State right after `__post_init__`: empty cache, freshly created empty
table. -/
def FBDict.empty : FBDict V B := ⟨[], []⟩

/-- The row written for `(key, value)` at eviction time: the serialized
value plus each extra column computed from the value
(`_prune_cache`, lines 185-188). -/
def rowOf (cfg : FBCfg V B) (k : String) (v : V) : String × B × List B :=
  (k, cfg.serializer v, cfg.extraColumns.map (fun f => f v))

/-- One step of `_prune_cache`'s loop: `popitem(last=False)` pops the
least-recently-used (front) cache entry and the batched
`INSERT OR REPLACE` writes its row.  `popitem` on an empty cache would
raise in Python; every call site guarantees the count never exceeds the
cache size, so that branch is unreachable and modelled as a no-op. -/
def evictOne (cfg : FBCfg V B) (d : FBDict V B) : FBDict V B :=
  match d.cache with
  | [] => d
  | (k, v) :: rest => ⟨rest, assocSet k (cfg.serializer v, cfg.extraColumns.map (fun f => f v)) d.store⟩

/-- `_prune_cache(num_items_to_prune)` (lines 180-198): pop the `n`
least-recently-used entries and write their rows with a batched
`INSERT OR REPLACE`.  The Python code collects all pops before issuing the
batch; since pops touch only the cache and writes only the store, the
interleaved fold is observationally identical. -/
def pruneCache (cfg : FBCfg V B) : Nat → FBDict V B → FBDict V B
  | 0, d => d
  | n + 1, d => pruneCache cfg n (evictOne cfg d)

/-- `_add_to_cache(key, value)` (lines 170-178): ordered-dict assignment,
then, if the cache exceeds `cache_max_size`, prune
`min(len(cache), cache_eviction_batch_size)` entries. -/
def addToCache (cfg : FBCfg V B) (k : String) (v : V) (d : FBDict V B) : FBDict V B :=
  let cache' := assocSet k v d.cache
  let d' : FBDict V B := ⟨cache', d.store⟩
  if cache'.length > cfg.cacheMaxSize then
    pruneCache cfg (min cache'.length cfg.cacheEvictionBatchSize) d'
  else d'

/-- `flush()` (lines 200-201): prune the whole cache. -/
def flushDict (cfg : FBCfg V B) (d : FBDict V B) : FBDict V B :=
  pruneCache cfg d.cache.length d

/-- `__setitem__` (lines 219-220). -/
def setItem (cfg : FBCfg V B) (k : String) (v : V) (d : FBDict V B) : FBDict V B :=
  addToCache cfg k v d

/-- `__getitem__` (lines 203-217): cache hit moves the key to the
most-recently-used end and returns the cached value; otherwise a point
`SELECT` on the store, `KeyError` if absent, else deserialize and re-insert
through `_add_to_cache` (read-through may itself evict colder entries).
Returns the value together with the mutated state. -/
def getItem (cfg : FBCfg V B) (k : String) (d : FBDict V B) :
    Except Err (V × FBDict V B) :=
  match lookupKey k d.cache with
  | some v => .ok (v, ⟨removeKey k d.cache ++ [(k, v)], d.store⟩)
  | none =>
      match lookupKey k d.store with
      | none => .error .notFound
      | some (b, _extras) =>
          let v := cfg.deserializer b
          .ok (v, addToCache cfg k v d)

/-- `__delitem__` (lines 222-232): remove from the cache if present, issue
the store `DELETE`, and raise `KeyError` iff the key was in neither (the
state is unchanged in that case, since both removals are no-ops). -/
def delItem (k : String) (d : FBDict V B) : Except Err (FBDict V B) :=
  let inCache := containsKey k d.cache
  let nDeleted := containsKey k d.store
  if !inCache && !nDeleted then .error .notFound
  else .ok ⟨removeKey k d.cache, removeKey k d.store⟩

/-- `__iter__` (lines 234-244): the store's keys, skipping any key that is
shadowed by a cache entry, followed by all cache keys. -/
def iterKeys (d : FBDict V B) : List String :=
  (d.store.map Prod.fst).filter (fun k => !(containsKey k d.cache)) ++
    d.cache.map Prod.fst

/-- `__len__` (lines 246-254): `SELECT COUNT(*) ... WHERE key NOT IN
(<cached keys>)` plus the cache size. -/
def lenFB (d : FBDict V B) : Nat :=
  ((d.store.map Prod.fst).filter (fun k => !(containsKey k d.cache))).length +
    d.cache.length

/-- The set of live keys of a dict state: keys present in the cache or the
store. -/
def liveKeys (d : FBDict V B) : List String :=
  d.store.map Prod.fst ++ d.cache.map Prod.fst

/-- `sql_query(query, params)` (lines 256-270) for a query over this
collection's own table: flush first (so pending cache entries, including
their extra columns, are visible), then run the query against the table
rows and return the rows it selects.  The query itself is abstracted as a
function of the table contents.  (Flushing of additionally referenced
collections is the same `flush` applied to their states.) -/
def sqlQuery (cfg : FBCfg V B) (q : List (String × B × List B) → List ρ)
    (d : FBDict V B) : List ρ × FBDict V B :=
  let d' := flushDict cfg d
  (q d'.store, d')

/-! ## Basic structural lemmas about the cache operations -/

/-- Pruning `n` entries drops exactly the `n` least-recently-used (front)
cache entries. -/
theorem pruneCache_cache (cfg : FBCfg V B) (n : Nat) (d : FBDict V B) :
    (pruneCache cfg n d).cache = d.cache.drop n := by
  induction n generalizing d with
  | zero => rfl
  | succ m ih =>
      cases hc : d.cache with
      | nil => simp [pruneCache, evictOne, hc, ih]
      | cons p rest =>
          obtain ⟨k, v⟩ := p
          simp [pruneCache, evictOne, hc, ih]

/-- `assocSet` preserves key distinctness. -/
theorem nodup_assocSet (k : String) (v : α) (l : List (String × α))
    (h : (l.map Prod.fst).Nodup) : ((assocSet k v l).map Prod.fst).Nodup := by
  cases hc : containsKey k l with
  | true => rw [map_fst_assocSet_of_contains k v l hc]; exact h
  | false =>
      rw [assocSet_of_not_contains k v l hc]
      simp only [List.map_append, List.map_cons, List.map_nil]
      rw [List.nodup_append]
      refine ⟨h, List.nodup_singleton k, ?_⟩
      intro a ha hb
      simp at hb
      subst hb
      have := (containsKey_iff_mem_map_fst a l).mpr ha
      rw [hc] at this
      cases this

/-- In a key-distinct association list, a key found in a dropped suffix has
the same value as in the full list. -/
theorem lookupKey_drop_of_contains (k : String) (n : Nat) (l : List (String × α))
    (hnd : (l.map Prod.fst).Nodup) (hc : containsKey k (l.drop n) = true) :
    lookupKey k (l.drop n) = lookupKey k l := by
  induction n generalizing l with
  | zero => rfl
  | succ m ih =>
      cases l with
      | nil => simp at hc
      | cons p rest =>
          obtain ⟨k₀, v₀⟩ := p
          simp only [List.drop_succ_cons] at hc ⊢
          simp only [List.map_cons, List.nodup_cons] at hnd
          rw [ih rest hnd.2 hc]
          have hmem : k ∈ rest.map Prod.fst := by
            rw [containsKey_iff_mem_map_fst] at hc
            exact List.map_subset Prod.fst (List.drop_subset m rest) hc
          have hne : k₀ ≠ k := by
            intro h
            subst h
            exact hnd.1 hmem
          simp [lookupKey, hne]

/-- The cache after `_add_to_cache` is a suffix (a `drop`) of the cache
after the ordered-dict assignment. -/
theorem addToCache_cache (cfg : FBCfg V B) (k : String) (v : V) (d : FBDict V B) :
    ∃ n, (addToCache cfg k v d).cache = (assocSet k v d.cache).drop n := by
  unfold addToCache
  by_cases h : (assocSet k v d.cache).length > cfg.cacheMaxSize
  · exact ⟨min (assocSet k v d.cache).length cfg.cacheEvictionBatchSize,
      by simp [h, pruneCache_cache]⟩
  · exact ⟨0, by simp [h]⟩

/-- C1 (claim): a key set and not yet evicted is served from the cache with
the value just set, whatever the store holds for it. -/
theorem set_get_cache_overrides_store (cfg : FBCfg V B) (d : FBDict V B)
    (k : String) (v : V)
    (hwf : (d.cache.map Prod.fst).Nodup)
    (hlive : containsKey k (setItem cfg k v d).cache = true) :
    ∃ d', getItem cfg k (setItem cfg k v d) = .ok (v, d') := by
  obtain ⟨n, hn⟩ := addToCache_cache cfg k v d
  have hnd : ((assocSet k v d.cache).map Prod.fst).Nodup := nodup_assocSet k v d.cache hwf
  have hc : containsKey k ((assocSet k v d.cache).drop n) = true := by
    rw [← hn]; exact hlive
  have hlook : lookupKey k (setItem cfg k v d).cache = some v := by
    show lookupKey k (addToCache cfg k v d).cache = some v
    rw [hn, lookupKey_drop_of_contains k n _ hnd hc, lookupKey_assocSet_self]
  refine ⟨⟨removeKey k (setItem cfg k v d).cache ++ [(k, v)],
    (setItem cfg k v d).store⟩, ?_⟩
  simp only [getItem, hlook]

/-! ## Lookup / delete error behaviour -/

/-- `__getitem__` raises exactly `KeyError`, exactly when the key is absent
from both the cache and the store. -/
theorem getItem_error_iff (cfg : FBCfg V B) (k : String) (d : FBDict V B) (e : Err) :
    getItem cfg k d = .error e ↔
      e = .notFound ∧ lookupKey k d.cache = none ∧ lookupKey k d.store = none := by
  unfold getItem
  cases hc : lookupKey k d.cache with
  | some v => simp [hc]
  | none =>
      cases hs : lookupKey k d.store with
      | none => simp [hs]; exact eq_comm
      | some p => obtain ⟨b, ex⟩ := p; simp [hs]

/-- `__delitem__` raises exactly `KeyError`, exactly when the key is absent
from both the cache and the store. -/
theorem delItem_error_iff (k : String) (d : FBDict V B) (e : Err) :
    delItem k d = .error e ↔
      e = .notFound ∧ lookupKey k d.cache = none ∧ lookupKey k d.store = none := by
  unfold delItem
  by_cases hc : containsKey k d.cache
  · have h1 : lookupKey k d.cache ≠ none := by
      simp [containsKey, Option.isSome_iff_ne_none] at hc
      exact hc
    simp [hc, h1]
  · by_cases hs : containsKey k d.store
    · have h2 : lookupKey k d.store ≠ none := by
        simp [containsKey, Option.isSome_iff_ne_none] at hs
        exact hs
      simp [hc, hs, h2]
    · have h1 : lookupKey k d.cache = none := by
        simp [containsKey, Option.isSome_iff_ne_none] at hc
        exact hc
      have h2 : lookupKey k d.store = none := by
        simp [containsKey, Option.isSome_iff_ne_none] at hs
        exact hs
      simp [hc, hs, h1, h2]
      exact eq_comm

/-- A successful `__delitem__` removes the key from cache and store. -/
theorem delItem_ok_shape (k : String) (d : FBDict V B) (d' : FBDict V B)
    (h : delItem k d = .ok d') :
    d' = ⟨removeKey k d.cache, removeKey k d.store⟩ := by
  unfold delItem at h
  by_cases hcond : (!containsKey k d.cache && !containsKey k d.store) = true
  · simp [hcond] at h
  · simp [hcond] at h
    exact h.symm

/-- C7: `get(k)` and `delete(k)` fail (with `KeyError`, the `NotFound`
condition) iff `k` is absent from both cache and store; a successful delete
removes `k` from both; neither returns a default. -/
theorem get_delete_notFound_semantics (cfg : FBCfg V B) (k : String) (d : FBDict V B) :
    (∀ e, getItem cfg k d = .error e ↔
        (e = .notFound ∧ lookupKey k d.cache = none ∧ lookupKey k d.store = none)) ∧
    (∀ e, delItem k d = .error e ↔
        (e = .notFound ∧ lookupKey k d.cache = none ∧ lookupKey k d.store = none)) ∧
    (∀ d', delItem k d = .ok d' →
        lookupKey k d'.cache = none ∧ lookupKey k d'.store = none) := by
  refine ⟨fun e => getItem_error_iff cfg k d e, fun e => delItem_error_iff k d e, ?_⟩
  intro d' h
  rw [delItem_ok_shape k d d' h]
  exact ⟨lookupKey_removeKey_self k d.cache, lookupKey_removeKey_self k d.store⟩

/-- A concrete configuration used by the witnesses: values and blobs are
numbers, serialization is the identity, one extra column `v + 1`,
`cache_max_size = 10`, `cache_eviction_batch_size = 1`. -/
def cfgW : FBCfg Nat Nat :=
  ⟨fun v => v, fun b => b, [fun v => v + 1], 10, 1⟩

/-- Witness for C7: deleting a key present only in the store succeeds and
removes it from both places (theorem applied at a concrete input). -/
theorem get_delete_notFound_semantics_witness :
    lookupKey "a" (FBDict.mk ([] : List (String × Nat)) ([] : List (String × Nat × List Nat))).cache = none ∧
    lookupKey "a" (FBDict.mk ([] : List (String × Nat)) ([] : List (String × Nat × List Nat))).store = none :=
  (get_delete_notFound_semantics cfgW "a" ⟨[], [("a", (1, [2]))]⟩).2.2 ⟨[], []⟩ (by rfl)

/-- Witness for C1: with the store holding the prior value `99` for `"k"`,
setting `"k" ↦ 5` and reading it back returns `5` from the cache. -/
theorem set_get_cache_overrides_store_witness :
    ∃ d', getItem cfgW "k" (setItem cfgW "k" 5 ⟨[], [("k", (99, [100]))]⟩) = .ok (5, d') :=
  set_get_cache_overrides_store cfgW ⟨[], [("k", (99, [100]))]⟩ "k" 5 (by simp) (by rfl)

/-! ## `FileBackedList`

Embeds the class `FileBackedList` (lines 289-363): an append-only adapter
over a private `FileBackedDict` with string-encoded integer keys and an
in-memory length counter. -/

def DEFAULT_MEMORY_CACHE_MAX_SIZE : Nat := 2000

def DEFAULT_MEMORY_CACHE_EVICTION_BATCH_SIZE : Nat := 200

/-- Python `x or default` applied to the optional `cache_max_size` /
`cache_eviction_batch_size` constructor arguments (lines 316-318): both
`None` and `0` fall back to the default. -/
def orDefault (o : Option Nat) (dflt : Nat) : Nat :=
  match o with
  | none => dflt
  | some n => if n = 0 then dflt else n

/-- The configuration built by `FileBackedList.__init__` (lines 310-319). -/
def mkListCfg (ser : V → B) (deser : B → V) (extras : List (V → B))
    (cms cebs : Option Nat) : FBCfg V B :=
  ⟨ser, deser, extras, orDefault cms DEFAULT_MEMORY_CACHE_MAX_SIZE,
    orDefault cebs DEFAULT_MEMORY_CACHE_EVICTION_BATCH_SIZE⟩

/-- State of a `FileBackedList`: the in-memory length counter `_len` and the
underlying dict `_dict`. -/
structure FBList (V B : Type) where
  len : Nat
  dict : FBDict V B

/-- A fresh list: `_len = 0` over a fresh dict. -/
def FBList.new : FBList V B := ⟨0, FBDict.empty⟩

/-- `FileBackedList.__getitem__` (lines 325-329): bounds check against the
in-memory length (raising `IndexError` outside `[0, len)`), then a dict
lookup at key `str(index)`. -/
def listGet (cfg : FBCfg V B) (i : Int) (l : FBList V B) :
    Except Err (V × FBList V B) :=
  if i < 0 ∨ (l.len : Int) ≤ i then .error .outOfRange
  else
    match getItem cfg (toString i.toNat) l.dict with
    | .error e => .error e
    | .ok (v, d') => .ok (v, ⟨l.len, d'⟩)

/-- `FileBackedList.__setitem__` (lines 331-335). -/
def listSet (cfg : FBCfg V B) (i : Int) (v : V) (l : FBList V B) :
    Except Err (FBList V B) :=
  if i < 0 ∨ (l.len : Int) ≤ i then .error .outOfRange
  else .ok ⟨l.len, setItem cfg (toString i.toNat) v l.dict⟩

/-- `FileBackedList.append` (lines 337-339): write at key `str(_len)`, then
increment `_len`. -/
def listAppend (cfg : FBCfg V B) (v : V) (l : FBList V B) : FBList V B :=
  ⟨l.len + 1, setItem cfg (toString l.len) v l.dict⟩

/-- `FileBackedList.flush` (lines 348-349). -/
def listFlush (cfg : FBCfg V B) (l : FBList V B) : FBList V B :=
  ⟨l.len, flushDict cfg l.dict⟩

/-- The constructed cache sizes are never zero (Python `x or default`). -/
theorem one_le_orDefault (o : Option Nat) (dflt : Nat) (h : 1 ≤ dflt) :
    1 ≤ orDefault o dflt := by
  cases o with
  | none => exact h
  | some n =>
      by_cases hn : n = 0 <;> simp [orDefault, hn] <;> omega

/-- C9: on a fresh `FileBackedList`, `append x` then `get 0` returns `x`
while `get 1` and `get (-1)` raise `IndexError`; in general indexed `get`
and `set` raise `IndexError` exactly for indices outside `[0, len)`, and
only `append` changes the length. -/
theorem list_append_index_bounds (ser : V → B) (deser : B → V)
    (extras : List (V → B)) (cms cebs : Option Nat) (x : V) :
    (listGet (mkListCfg ser deser extras cms cebs) 0
        (listAppend (mkListCfg ser deser extras cms cebs) x FBList.new) =
      .ok (x, listAppend (mkListCfg ser deser extras cms cebs) x FBList.new)) ∧
    (listGet (mkListCfg ser deser extras cms cebs) 1
        (listAppend (mkListCfg ser deser extras cms cebs) x FBList.new) =
      .error .outOfRange) ∧
    (listGet (mkListCfg ser deser extras cms cebs) (-1)
        (listAppend (mkListCfg ser deser extras cms cebs) x FBList.new) =
      .error .outOfRange) ∧
    (∀ (cfg : FBCfg V B) (l : FBList V B) (i : Int),
      (listGet cfg i l = .error .outOfRange ↔ i < 0 ∨ (l.len : Int) ≤ i) ∧
      (listSet cfg i x l = .error .outOfRange ↔ i < 0 ∨ (l.len : Int) ≤ i)) ∧
    (∀ (cfg : FBCfg V B) (l : FBList V B) (i : Int) (v' : V),
      (∀ w l', listGet cfg i l = .ok (w, l') → l'.len = l.len) ∧
      (∀ l', listSet cfg i v' l = .ok l' → l'.len = l.len) ∧
      (listAppend cfg v' l).len = l.len + 1 ∧
      (listFlush cfg l).len = l.len) := by
  set cfg₁ := mkListCfg ser deser extras cms cebs with hcfg
  have hms : 1 ≤ cfg₁.cacheMaxSize := by
    rw [hcfg]
    exact one_le_orDefault cms DEFAULT_MEMORY_CACHE_MAX_SIZE (by decide)
  have hnotgt : ¬ ((1 : Nat) > cfg₁.cacheMaxSize) := by omega
  have happ : listAppend cfg₁ x FBList.new =
      ⟨1, ⟨[(toString (0 : Nat), x)], []⟩⟩ := by
    simp [listAppend, FBList.new, setItem, addToCache, FBDict.empty, hnotgt]
  refine ⟨?_, ?_, ?_, ?_, ?_⟩
  · rw [happ]
    have : ¬ ((0 : Int) < 0 ∨ ((1 : Nat) : Int) ≤ 0) := by norm_num
    simp only [listGet, this, if_false]
    have hkey : toString (Int.toNat 0) = toString (0 : Nat) := by norm_num
    simp [getItem, hkey, removeKey]
  · rw [happ]
    have : ((1 : Int) < 0 ∨ ((1 : Nat) : Int) ≤ 1) := by norm_num
    simp only [listGet, this, if_true]
  · rw [happ]
    have : ((-1 : Int) < 0 ∨ ((1 : Nat) : Int) ≤ -1) := by norm_num
    simp only [listGet, this, if_true]
  · intro cfg l i
    constructor
    · unfold listGet
      by_cases h : i < 0 ∨ (l.len : Int) ≤ i
      · simp [h]
      · simp only [h, if_false]
        cases hg : getItem cfg (toString i.toNat) l.dict with
        | error e =>
            have he : e = .notFound :=
              ((getItem_error_iff cfg (toString i.toNat) l.dict e).mp hg).1
            subst he
            simp [h]
        | ok p => obtain ⟨v, d'⟩ := p; simp [h]
    · unfold listSet
      by_cases h : i < 0 ∨ (l.len : Int) ≤ i
      · simp [h]
      · simp [h]
  · intro cfg l i v'
    refine ⟨?_, ?_, rfl, rfl⟩
    · intro w l'
      unfold listGet
      by_cases h : i < 0 ∨ (l.len : Int) ≤ i
      · simp [h]
      · simp only [h, if_false]
        cases hg : getItem cfg (toString i.toNat) l.dict with
        | error e => simp
        | ok p =>
            obtain ⟨v, d'⟩ := p
            intro hh
            simp at hh
            rw [← hh.2]
    · intro l'
      unfold listSet
      by_cases h : i < 0 ∨ (l.len : Int) ≤ i
      · simp [h]
      · simp only [h, if_false]
        intro hh
        simp at hh
        rw [← hh]

/-! ## Well-formedness and reachable dict states -/

/-- Well-formedness of a dict state: cache keys are distinct (Python dict
keys are unique) and store keys are distinct (`key` is the table's primary
key). -/
def WF (d : FBDict V B) : Prop :=
  (d.cache.map Prod.fst).Nodup ∧ (d.store.map Prod.fst).Nodup

/-- States reachable from a freshly constructed `FileBackedDict` through
its public operations (`set`, successful `get`, successful `delete`,
`flush`; iteration and `len` do not mutate). -/
inductive Reachable (cfg : FBCfg V B) : FBDict V B → Prop where
  | empty : Reachable cfg FBDict.empty
  | set : ∀ (k : String) (v : V) {d : FBDict V B},
      Reachable cfg d → Reachable cfg (setItem cfg k v d)
  | get : ∀ (k : String) {d : FBDict V B} {v : V} {d' : FBDict V B},
      Reachable cfg d → getItem cfg k d = .ok (v, d') → Reachable cfg d'
  | del : ∀ (k : String) {d d' : FBDict V B},
      Reachable cfg d → delItem k d = .ok d' → Reachable cfg d'
  | flush : ∀ {d : FBDict V B}, Reachable cfg d → Reachable cfg (flushDict cfg d)

theorem removeKey_sublist (k : String) (l : List (String × α)) :
    List.Sublist (removeKey k l) l := by
  induction l with
  | nil => simp
  | cons p rest ih =>
      obtain ⟨k', v'⟩ := p
      by_cases h : k' = k
      · simp only [removeKey, if_pos h]
        exact ih.cons _
      · simp only [removeKey, if_neg h]
        exact ih.cons₂ _

theorem nodup_removeKey (k : String) (l : List (String × α))
    (h : (l.map Prod.fst).Nodup) : ((removeKey k l).map Prod.fst).Nodup :=
  ((removeKey_sublist k l).map Prod.fst).nodup h

theorem length_removeKey_le (k : String) (l : List (String × α)) :
    (removeKey k l).length ≤ l.length :=
  (removeKey_sublist k l).length_le

theorem not_mem_map_fst_removeKey (k : String) (l : List (String × α)) :
    k ∉ (removeKey k l).map Prod.fst :=
  (lookupKey_eq_none_iff k (removeKey k l)).mp (lookupKey_removeKey_self k l)

theorem length_removeKey_lt_of_contains (k : String) (l : List (String × α))
    (h : containsKey k l = true) : (removeKey k l).length < l.length := by
  induction l with
  | nil => simp at h
  | cons p rest ih =>
      obtain ⟨k', v'⟩ := p
      by_cases hk : k' = k
      · simp only [removeKey, if_pos hk, List.length_cons]
        have := length_removeKey_le k rest
        omega
      · rw [containsKey_cons, if_neg hk] at h
        simp only [removeKey, if_neg hk, List.length_cons]
        have := ih h
        omega

/-- Unfolding equation for `_add_to_cache`. -/
theorem addToCache_eq (cfg : FBCfg V B) (k : String) (v : V) (d : FBDict V B) :
    addToCache cfg k v d =
      if (assocSet k v d.cache).length > cfg.cacheMaxSize then
        pruneCache cfg (min (assocSet k v d.cache).length cfg.cacheEvictionBatchSize)
          ⟨assocSet k v d.cache, d.store⟩
      else ⟨assocSet k v d.cache, d.store⟩ := rfl

theorem WF_empty : WF (FBDict.empty : FBDict V B) := by
  constructor <;> simp [FBDict.empty]

theorem WF_evictOne (cfg : FBCfg V B) (d : FBDict V B) (h : WF d) :
    WF (evictOne cfg d) := by
  obtain ⟨hc, hs⟩ := h
  cases hd : d.cache with
  | nil =>
      refine ⟨?_, ?_⟩ <;> simp only [evictOne, hd]
      · simp
      · exact hs
  | cons p rest =>
      obtain ⟨k, v⟩ := p
      rw [hd] at hc
      simp only [List.map_cons, List.nodup_cons] at hc
      exact ⟨by simpa [evictOne, hd] using hc.2,
        by simpa [evictOne, hd] using nodup_assocSet k _ d.store hs⟩

theorem WF_pruneCache (cfg : FBCfg V B) (n : Nat) (d : FBDict V B) (h : WF d) :
    WF (pruneCache cfg n d) := by
  induction n generalizing d with
  | zero => exact h
  | succ m ih => exact ih (evictOne cfg d) (WF_evictOne cfg d h)

theorem WF_addToCache (cfg : FBCfg V B) (k : String) (v : V) (d : FBDict V B)
    (h : WF d) : WF (addToCache cfg k v d) := by
  rw [addToCache_eq]
  have h' : WF (⟨assocSet k v d.cache, d.store⟩ : FBDict V B) :=
    ⟨nodup_assocSet k v d.cache h.1, h.2⟩
  by_cases hcond : (assocSet k v d.cache).length > cfg.cacheMaxSize
  · rw [if_pos hcond]
    exact WF_pruneCache cfg _ _ h'
  · rw [if_neg hcond]
    exact h'

theorem WF_getItem (cfg : FBCfg V B) (k : String) (d : FBDict V B) (v : V)
    (d' : FBDict V B) (h : WF d) (hok : getItem cfg k d = .ok (v, d')) : WF d' := by
  unfold getItem at hok
  cases hc : lookupKey k d.cache with
  | some v₀ =>
      rw [hc] at hok
      simp at hok
      rw [← hok.2]
      refine ⟨?_, h.2⟩
      simp only [List.map_append, List.map_cons, List.map_nil]
      rw [List.nodup_append]
      refine ⟨nodup_removeKey k d.cache h.1, List.nodup_singleton k, ?_⟩
      intro a ha hb
      simp at hb
      subst hb
      exact not_mem_map_fst_removeKey a d.cache ha
  | none =>
      rw [hc] at hok
      cases hs : lookupKey k d.store with
      | none => rw [hs] at hok; cases hok
      | some p =>
          obtain ⟨b, ex⟩ := p
          rw [hs] at hok
          simp at hok
          rw [← hok.2]
          exact WF_addToCache cfg k _ d h

theorem WF_delItem (k : String) (d d' : FBDict V B) (h : WF d)
    (hok : delItem k d = .ok d') : WF d' := by
  rw [delItem_ok_shape k d d' hok]
  exact ⟨nodup_removeKey k d.cache h.1, nodup_removeKey k d.store h.2⟩

/-- Every reachable dict state is well-formed. -/
theorem Reachable.wf (cfg : FBCfg V B) (d : FBDict V B)
    (h : Reachable cfg d) : WF d := by
  induction h with
  | empty => exact WF_empty
  | set k v _ ih => exact WF_addToCache cfg k v _ ih
  | get k _ hok ih => exact WF_getItem cfg k _ _ _ ih hok
  | del k _ hok ih => exact WF_delItem k _ _ ih hok
  | flush _ ih => exact WF_pruneCache cfg _ _ ih

/-! ## The cache-size bound (C10) -/

theorem length_assocSet_le (k : String) (v : α) (l : List (String × α)) :
    (assocSet k v l).length ≤ l.length + 1 := by
  induction l with
  | nil => simp
  | cons p rest ih =>
      obtain ⟨k', v'⟩ := p
      by_cases h : k' = k
      · simp [assocSet, h]
      · simp [assocSet, h]
        omega

/-- `_add_to_cache` restores the cache bound whenever the eviction batch
size is positive. -/
theorem addToCache_cache_bound (cfg : FBCfg V B) (k : String) (v : V)
    (d : FBDict V B) (hb : 1 ≤ cfg.cacheEvictionBatchSize)
    (hld : d.cache.length ≤ cfg.cacheMaxSize) :
    (addToCache cfg k v d).cache.length ≤ cfg.cacheMaxSize := by
  rw [addToCache_eq]
  have h1 := length_assocSet_le k v d.cache
  by_cases h : (assocSet k v d.cache).length > cfg.cacheMaxSize
  · rw [if_pos h]
    rw [pruneCache_cache, List.length_drop]
    dsimp only
    omega
  · rw [if_neg h]
    dsimp only
    omega

theorem getItem_ok_cache_bound (cfg : FBCfg V B) (k : String) (d : FBDict V B)
    (v : V) (d' : FBDict V B) (hb : 1 ≤ cfg.cacheEvictionBatchSize)
    (hld : d.cache.length ≤ cfg.cacheMaxSize)
    (hok : getItem cfg k d = .ok (v, d')) :
    d'.cache.length ≤ cfg.cacheMaxSize := by
  unfold getItem at hok
  cases hc : lookupKey k d.cache with
  | some v₀ =>
      rw [hc] at hok
      simp at hok
      rw [← hok.2]
      simp only [List.length_append, List.length_cons, List.length_nil]
      have hcont : containsKey k d.cache = true := by simp [containsKey, hc]
      have := length_removeKey_lt_of_contains k d.cache hcont
      omega
  | none =>
      rw [hc] at hok
      cases hs : lookupKey k d.store with
      | none => rw [hs] at hok; cases hok
      | some p =>
          obtain ⟨b, ex⟩ := p
          rw [hs] at hok
          simp at hok
          rw [← hok.2]
          exact addToCache_cache_bound cfg k _ d hb hld

/-- Every reachable state satisfies the cache bound when the batch size is
positive. -/
theorem reachable_cache_bound (cfg : FBCfg V B) (d : FBDict V B)
    (hb : 1 ≤ cfg.cacheEvictionBatchSize) (h : Reachable cfg d) :
    d.cache.length ≤ cfg.cacheMaxSize := by
  induction h with
  | empty => simp [FBDict.empty]
  | set k v _ ih => exact addToCache_cache_bound cfg k v _ hb ih
  | get k _ hok ih => exact getItem_ok_cache_bound cfg k _ _ _ hb ih hok
  | del k _ hok ih =>
      rename_i d₀ d₁ _
      rw [delItem_ok_shape k d₀ d₁ hok]
      exact le_trans (length_removeKey_le k d₀.cache) ih
  | flush _ ih =>
      rw [flushDict, pruneCache_cache]
      simp

/-- C10: with `cache_eviction_batch_size ≥ 1`, after every public operation
a reachable dict's cache holds at most `cache_max_size` entries; an
insertion that pushes the cache strictly above the bound immediately evicts
`min(cache size, cache_eviction_batch_size)` entries, restoring the bound
before the operation returns. -/
theorem cache_size_invariant (cfg : FBCfg V B) (d : FBDict V B) (k : String)
    (v : V) (hb : 1 ≤ cfg.cacheEvictionBatchSize) (hr : Reachable cfg d) :
    d.cache.length ≤ cfg.cacheMaxSize ∧
    ((assocSet k v d.cache).length > cfg.cacheMaxSize →
      (addToCache cfg k v d).cache.length =
        (assocSet k v d.cache).length -
          min (assocSet k v d.cache).length cfg.cacheEvictionBatchSize ∧
      (addToCache cfg k v d).cache.length ≤ cfg.cacheMaxSize) := by
  refine ⟨reachable_cache_bound cfg d hb hr, fun hover => ⟨?_, ?_⟩⟩
  · rw [addToCache_eq, if_pos hover, pruneCache_cache, List.length_drop]
  · exact addToCache_cache_bound cfg k v d hb (reachable_cache_bound cfg d hb hr)

/-- A small concrete configuration (`cache_max_size = 1`,
`cache_eviction_batch_size = 1`) used to exercise eviction in witnesses. -/
def cfgS : FBCfg Nat Nat := ⟨fun v => v, fun b => b, [], 1, 1⟩

/-- Witness for C10: on the reachable state `{a ↦ 1}` (cache size 1 = bound),
inserting `b` overflows and evicts `min(2, 1) = 1` entry, restoring
the bound. -/
theorem cache_size_invariant_witness :
    (setItem cfgS "a" 1 FBDict.empty).cache.length ≤ cfgS.cacheMaxSize ∧
    ((assocSet "b" 2 (setItem cfgS "a" 1 FBDict.empty).cache).length > cfgS.cacheMaxSize →
      (addToCache cfgS "b" 2 (setItem cfgS "a" 1 FBDict.empty)).cache.length =
        (assocSet "b" 2 (setItem cfgS "a" 1 FBDict.empty).cache).length -
          min (assocSet "b" 2 (setItem cfgS "a" 1 FBDict.empty).cache).length
            cfgS.cacheEvictionBatchSize ∧
      (addToCache cfgS "b" 2 (setItem cfgS "a" 1 FBDict.empty)).cache.length ≤
        cfgS.cacheMaxSize) :=
  cache_size_invariant cfgS (setItem cfgS "a" 1 FBDict.empty) "b" 2 (by decide)
    (Reachable.set "a" 1 Reachable.empty)

/-! ## Iteration and length (C4, C5) -/

/-- `__iter__` yields a key iff it is live (in the store or in the cache),
on any state. -/
theorem mem_iterKeys_iff (d : FBDict V B) (k : String) :
    k ∈ iterKeys d ↔ k ∈ liveKeys d := by
  simp only [iterKeys, liveKeys, List.mem_append, List.mem_filter]
  by_cases h : k ∈ d.cache.map Prod.fst
  · have hc : containsKey k d.cache = true :=
      (containsKey_iff_mem_map_fst k d.cache).mpr h
    simp [hc, h]
  · have hc : containsKey k d.cache = false := by
      cases hcc : containsKey k d.cache
      · rfl
      · exact absurd ((containsKey_iff_mem_map_fst k d.cache).mp hcc) h
    simp [hc, h]

/-- On a well-formed state, `__iter__` yields no key twice. -/
theorem nodup_iterKeys (d : FBDict V B) (h : WF d) : (iterKeys d).Nodup := by
  obtain ⟨hc, hs⟩ := h
  rw [iterKeys, List.nodup_append]
  refine ⟨hs.filter _, hc, ?_⟩
  intro a ha hb
  rw [List.mem_filter] at ha
  have h1 : containsKey a d.cache = false := by
    have := ha.2
    cases hcc : containsKey a d.cache
    · rfl
    · rw [hcc] at this; cases this
  have h2 : containsKey a d.cache = true :=
    (containsKey_iff_mem_map_fst a d.cache).mpr hb
  rw [h1] at h2
  cases h2

/-- C4: on every reachable dict state, `__iter__` yields every live key
(store keys not shadowed by a cache entry, then all cache keys) exactly
once. -/
theorem iterate_each_live_key_once (cfg : FBCfg V B) (d : FBDict V B)
    (hr : Reachable cfg d) :
    (iterKeys d).Nodup ∧ ∀ k, (k ∈ iterKeys d ↔ k ∈ liveKeys d) :=
  ⟨nodup_iterKeys d (Reachable.wf cfg d hr), fun k => mem_iterKeys_iff d k⟩

/-- Witness for C4: on the reachable state reached by `set a 1; set b 2`
with `cache_max_size = 1` (so `a` has been evicted to the store while `b`
is cache-resident), iteration yields no duplicates. -/
theorem iterate_each_live_key_once_witness :
    (iterKeys (setItem cfgS "b" 2 (setItem cfgS "a" 1 FBDict.empty))).Nodup ∧
    ("a" ∈ iterKeys (setItem cfgS "b" 2 (setItem cfgS "a" 1 FBDict.empty)) ↔
      "a" ∈ liveKeys (setItem cfgS "b" 2 (setItem cfgS "a" 1 FBDict.empty))) :=
  ⟨(iterate_each_live_key_once cfgS _
      (Reachable.set "b" 2 (Reachable.set "a" 1 Reachable.empty))).1,
    (iterate_each_live_key_once cfgS _
      (Reachable.set "b" 2 (Reachable.set "a" 1 Reachable.empty))).2 "a"⟩

/-- C5: on every reachable dict state, `__len__` — the store row count
excluding keys present in the cache, plus the cache size — equals the
number of distinct live keys. -/
theorem length_eq_card_live_keys (cfg : FBCfg V B) (d : FBDict V B)
    (hr : Reachable cfg d) :
    lenFB d = (liveKeys d).toFinset.card := by
  have hwf := Reachable.wf cfg d hr
  have h1 : lenFB d = (iterKeys d).length := by
    rw [lenFB, iterKeys, List.length_append, List.length_map]
  have h2 : (iterKeys d).toFinset = (liveKeys d).toFinset := by
    ext a
    simp only [List.mem_toFinset]
    exact mem_iterKeys_iff d a
  rw [h1, ← h2, List.toFinset_card_of_nodup (nodup_iterKeys d hwf)]

/-- Witness for C5: with `a` flushed to the store and `b` pending in the
cache, the length is the number of distinct live keys. -/
theorem length_eq_card_live_keys_witness :
    lenFB (setItem cfgS "b" 2 (setItem cfgS "a" 1 FBDict.empty)) =
      (liveKeys (setItem cfgS "b" 2 (setItem cfgS "a" 1 FBDict.empty))).toFinset.card :=
  length_eq_card_live_keys cfgS _
    (Reachable.set "b" 2 (Reachable.set "a" 1 Reachable.empty))

/-! ## Eviction preserves values (C2) -/

/-- The binding `k ↦ v` is tracked by a dict state: either the cache holds
it (authoritative), or the cache does not mention `k` and the store holds
its serialized row. -/
def Tracks (cfg : FBCfg V B) (k : String) (v : V) (d : FBDict V B) : Prop :=
  lookupKey k d.cache = some v ∨
  (lookupKey k d.cache = none ∧
    lookupKey k d.store =
      some (cfg.serializer v, cfg.extraColumns.map (fun f => f v)))

theorem tracks_evictOne (cfg : FBCfg V B) (k : String) (v : V) (d : FBDict V B)
    (hwf : WF d) (ht : Tracks cfg k v d) : Tracks cfg k v (evictOne cfg d) := by
  cases hd : d.cache with
  | nil =>
      unfold evictOne
      rw [hd]
      exact ht
  | cons p rest =>
      obtain ⟨k₀, v₀⟩ := p
      unfold evictOne
      rw [hd]
      by_cases hk : k₀ = k
      · subst hk
        -- the tracked key itself is popped and written to the store
        cases ht with
        | inl hcache =>
            rw [hd] at hcache
            simp [lookupKey] at hcache
            subst hcache
            right
            constructor
            · have hnd := hwf.1
              rw [hd] at hnd
              simp only [List.map_cons, List.nodup_cons] at hnd
              exact (lookupKey_eq_none_iff k₀ rest).mpr hnd.1
            · exact lookupKey_assocSet_self k₀ _ d.store
        | inr hstore =>
            rw [hd] at hstore
            simp [lookupKey] at hstore
      · -- a colder key is popped; `k`'s cache entry / store row is untouched
        cases ht with
        | inl hcache =>
            left
            rw [hd] at hcache
            simp [lookupKey, hk] at hcache
            exact hcache
        | inr hstore =>
            right
            rw [hd] at hstore
            simp [lookupKey, hk] at hstore
            exact ⟨hstore.1, by rw [lookupKey_assocSet_ne k k₀ hk _ d.store]; exact hstore.2⟩

theorem tracks_pruneCache (cfg : FBCfg V B) (k : String) (v : V) (n : Nat)
    (d : FBDict V B) (hwf : WF d) (ht : Tracks cfg k v d) :
    Tracks cfg k v (pruneCache cfg n d) := by
  induction n generalizing d with
  | zero => exact ht
  | succ m ih =>
      exact ih (evictOne cfg d) (WF_evictOne cfg d hwf)
        (tracks_evictOne cfg k v d hwf ht)

/-- `set(k, v)` establishes tracking of `k ↦ v` (even if the insertion
itself evicts `k`). -/
theorem tracks_setItem_self (cfg : FBCfg V B) (k : String) (v : V)
    (d : FBDict V B) (hwf : WF d) : Tracks cfg k v (setItem cfg k v d) := by
  show Tracks cfg k v (addToCache cfg k v d)
  rw [addToCache_eq]
  have hwf' : WF (⟨assocSet k v d.cache, d.store⟩ : FBDict V B) :=
    ⟨nodup_assocSet k v d.cache hwf.1, hwf.2⟩
  have ht : Tracks cfg k v (⟨assocSet k v d.cache, d.store⟩ : FBDict V B) :=
    Or.inl (lookupKey_assocSet_self k v d.cache)
  by_cases h : (assocSet k v d.cache).length > cfg.cacheMaxSize
  · rw [if_pos h]
    exact tracks_pruneCache cfg k v _ _ hwf' ht
  · rw [if_neg h]
    exact ht

/-- `set(k', v')` for `k' ≠ k` preserves tracking of `k ↦ v`. -/
theorem tracks_setItem_other (cfg : FBCfg V B) (k k' : String) (v : V) (v' : V)
    (d : FBDict V B) (hwf : WF d) (hne : k' ≠ k) (ht : Tracks cfg k v d) :
    Tracks cfg k v (setItem cfg k' v' d) := by
  show Tracks cfg k v (addToCache cfg k' v' d)
  rw [addToCache_eq]
  have hwf' : WF (⟨assocSet k' v' d.cache, d.store⟩ : FBDict V B) :=
    ⟨nodup_assocSet k' v' d.cache hwf.1, hwf.2⟩
  have ht' : Tracks cfg k v (⟨assocSet k' v' d.cache, d.store⟩ : FBDict V B) := by
    cases ht with
    | inl hcache => exact Or.inl (by rw [lookupKey_assocSet_ne k k' hne v' d.cache]; exact hcache)
    | inr hstore =>
        exact Or.inr ⟨by rw [lookupKey_assocSet_ne k k' hne v' d.cache]; exact hstore.1, hstore.2⟩
  by_cases h : (assocSet k' v' d.cache).length > cfg.cacheMaxSize
  · rw [if_pos h]
    exact tracks_pruneCache cfg k v _ _ hwf' ht'
  · rw [if_neg h]
    exact ht'

theorem tracks_foldl_setItem (cfg : FBCfg V B) (k : String) (v : V)
    (ops : List (String × V)) (d : FBDict V B) (hwf : WF d)
    (hops : ∀ p ∈ ops, p.1 ≠ k) (ht : Tracks cfg k v d) :
    Tracks cfg k v (ops.foldl (fun s p => setItem cfg p.1 p.2 s) d) := by
  induction ops generalizing d with
  | nil => exact ht
  | cons p rest ih =>
      obtain ⟨k', v'⟩ := p
      simp only [List.foldl_cons]
      refine ih (setItem cfg k' v' d) (WF_addToCache cfg k' v' d hwf)
        (fun q hq => hops q (List.mem_cons_of_mem _ hq)) ?_
      exact tracks_setItem_other cfg k k' v v' d hwf
        (hops (k', v') (List.mem_cons_self _ _)) ht

/-- C2: if deserialization is a left inverse of serialization at `v`, then
after `set(k, v)` followed by any further `set`s of other keys — in
particular enough to force `k`'s eviction (hypothesis: `k` is no longer in
the cache) — `get(k)` still returns `v`, now served from the store. -/
theorem eviction_preserves_value (cfg : FBCfg V B) (d : FBDict V B)
    (k : String) (v : V) (ops : List (String × V))
    (hround : cfg.deserializer (cfg.serializer v) = v)
    (hwf : WF d)
    (hops : ∀ p ∈ ops, p.1 ≠ k)
    (hevicted : lookupKey k
      (ops.foldl (fun s p => setItem cfg p.1 p.2 s) (setItem cfg k v d)).cache = none) :
    ∃ d', getItem cfg k
        (ops.foldl (fun s p => setItem cfg p.1 p.2 s) (setItem cfg k v d)) =
      .ok (v, d') := by
  have ht : Tracks cfg k v
      (ops.foldl (fun s p => setItem cfg p.1 p.2 s) (setItem cfg k v d)) :=
    tracks_foldl_setItem cfg k v ops (setItem cfg k v d)
      (WF_addToCache cfg k v d hwf) hops (tracks_setItem_self cfg k v d hwf)
  cases ht with
  | inl hcache => rw [hevicted] at hcache; cases hcache
  | inr hstore =>
      refine ⟨addToCache cfg k v
        (ops.foldl (fun s p => setItem cfg p.1 p.2 s) (setItem cfg k v d)), ?_⟩
      unfold getItem
      rw [hevicted, hstore.2]
      simp [hround]

/-- Witness for C2: `set a 5` then `set b 7` with `cache_max_size = 1`
evicts `a`; `get a` is then served from the store and still returns `5`. -/
theorem eviction_preserves_value_witness :
    ∃ d', getItem cfgS "a"
        ([("b", 7)].foldl (fun s p => setItem cfgS p.1 p.2 s)
          (setItem cfgS "a" 5 FBDict.empty)) = .ok (5, d') :=
  eviction_preserves_value cfgS FBDict.empty "a" 5 [("b", 7)] rfl
    ⟨by simp [FBDict.empty], by simp [FBDict.empty]⟩
    (by intro p hp; simp at hp; subst hp; decide)
    (by rfl)

/-! ## LRU ordering (C3)

Python's `OrderedDict` leaves an existing key's position unchanged on plain
assignment; `move_to_end` is called only on a cache *hit* in `__getitem__`.
Hence a `set` of an already-cached key does **not** make it
most-recently-used. -/

/-- Counterexample to C3 as stated: after `set a 0; set b 2; set a 1`
(cache far below its bound), the cache order is still `[a, b]` — the key
`a` that was just set is *not* the most-recently-used (back) entry, and the
next eviction pops `a` first even though it was set last. -/
theorem set_existing_key_not_mru_counterexample :
    (setItem cfgW "a" 1 (setItem cfgW "b" 2 (setItem cfgW "a" 0 FBDict.empty))).cache =
      [("a", 1), ("b", 2)] ∧
    (setItem cfgW "a" 1 (setItem cfgW "b" 2 (setItem cfgW "a" 0 FBDict.empty))).cache.getLast? ≠
      some ("a", 1) ∧
    (evictOne cfgW (setItem cfgW "a" 1 (setItem cfgW "b" 2 (setItem cfgW "a" 0 FBDict.empty)))).cache =
      [("b", 2)] := by
  refine ⟨by decide, by decide, by decide⟩

/-- C3 (amended): the cache is ordered by recency with the
most-recently-used entry at the back: (1) `set` of a key *not already
cached* (that does not overflow the cache) appends it at the
most-recently-used end; (2) a `get` served from the cache moves the key to
the most-recently-used end; (3) `set` of an *already cached* key updates
the value in place, leaving every key's position (hence its eviction
order) unchanged; (4) eviction pops the `n` least-recently-used entries
from the front, in order. -/
theorem lru_order_semantics (cfg : FBCfg V B) (d : FBDict V B) (k : String)
    (v : V) (n : Nat) :
    (containsKey k d.cache = false →
      (assocSet k v d.cache).length ≤ cfg.cacheMaxSize →
      (setItem cfg k v d).cache = d.cache ++ [(k, v)]) ∧
    (∀ v₀, lookupKey k d.cache = some v₀ →
      getItem cfg k d = .ok (v₀, ⟨removeKey k d.cache ++ [(k, v₀)], d.store⟩)) ∧
    (containsKey k d.cache = true →
      (assocSet k v d.cache).map Prod.fst = d.cache.map Prod.fst) ∧
    (pruneCache cfg n d).cache = d.cache.drop n := by
  refine ⟨?_, ?_, ?_, pruneCache_cache cfg n d⟩
  · intro hnc hlen
    show (addToCache cfg k v d).cache = d.cache ++ [(k, v)]
    rw [addToCache_eq, if_neg (by omega)]
    exact assocSet_of_not_contains k v d.cache hnc
  · intro v₀ hv
    unfold getItem
    rw [hv]
  · intro hc
    exact map_fst_assocSet_of_contains k v d.cache hc

/-- Witness for the amended C3: on the cache `[(x, 9)]`, setting the fresh
key `a` appends it at the most-recently-used end, and a cache hit on `x`
moves `x` to the most-recently-used end. -/
theorem lru_order_semantics_witness :
    (setItem cfgW "a" 1 ⟨[("x", 9)], []⟩).cache = [("x", 9)] ++ [("a", 1)] ∧
    getItem cfgW "x" (⟨[("x", 9), ("y", 8)], []⟩ : FBDict Nat Nat) =
      .ok (9, ⟨removeKey "x" [("x", 9), ("y", 8)] ++ [("x", 9)], []⟩) :=
  ⟨(lru_order_semantics cfgW ⟨[("x", 9)], []⟩ "a" 1 0).1 (by decide) (by decide),
    (lru_order_semantics cfgW ⟨[("x", 9), ("y", 8)], []⟩ "x" 0 0).2.1 9 (by decide)⟩

/-! ## Deferred extra-column visibility (C6)

`sql_query` flushes the collection itself before executing the query
(lines 262-269), so a query issued through `sql_query` on the collection
holding a pending entry *does* see that entry's row.  What is deferred is
the row's presence in the underlying table: it appears — extra columns
computed from the value — only at flush/eviction time. -/

/-- Counterexample to C6 as stated: after `set k 5` (no flush was called),
a query issued via `sql_query` filtering on `k`'s extra column (here
`v + 1 = 6`) **does** see the row for `k`, because `sql_query` flushes the
collection first. -/
theorem sql_query_sees_pending_row_counterexample :
    (sqlQuery cfgW (fun rows => rows.filter (fun r => r.2.2.headD 0 == 6))
        (setItem cfgW "k" 5 FBDict.empty)).1 = [("k", 5, [6])] ∧
    (sqlQuery cfgW (fun rows => rows.filter (fun r => r.2.2.headD 0 == 6))
        (setItem cfgW "k" 5 FBDict.empty)).1 ≠ [] := by
  refine ⟨by decide, by decide⟩

/-- C6 (amended): after `set(k, v)` (no eviction triggered) the underlying
table is unchanged — it holds no row for `k` if it held none before, so the
pending entry's extra columns are not visible in the table; after `flush()`
the table holds `k`'s row with its extra columns computed from `v`.  A
query issued via `sql_query` on the collection itself flushes first and
therefore observes the flushed table. -/
theorem deferred_extra_column_visibility (cfg : FBCfg V B) (d : FBDict V B)
    (k : String) (v : V) (hwf : WF d)
    (hnostore : lookupKey k d.store = none)
    (hnoev : (assocSet k v d.cache).length ≤ cfg.cacheMaxSize) :
    (setItem cfg k v d).store = d.store ∧
    lookupKey k (setItem cfg k v d).store = none ∧
    lookupKey k (flushDict cfg (setItem cfg k v d)).store =
      some (cfg.serializer v, cfg.extraColumns.map (fun f => f v)) ∧
    (∀ q : List (String × B × List B) → List (String × B × List B),
      (sqlQuery cfg q (setItem cfg k v d)).1 =
        q (flushDict cfg (setItem cfg k v d)).store) := by
  have hset : setItem cfg k v d = ⟨assocSet k v d.cache, d.store⟩ := by
    show addToCache cfg k v d = _
    rw [addToCache_eq, if_neg (by omega)]
  have hwf1 : WF (⟨assocSet k v d.cache, d.store⟩ : FBDict V B) :=
    ⟨nodup_assocSet k v d.cache hwf.1, hwf.2⟩
  have ht : Tracks cfg k v (⟨assocSet k v d.cache, d.store⟩ : FBDict V B) :=
    Or.inl (lookupKey_assocSet_self k v d.cache)
  refine ⟨by rw [hset], by rw [hset]; exact hnostore, ?_, fun q => rfl⟩
  rw [hset]
  have ht2 := tracks_pruneCache cfg k v
    (⟨assocSet k v d.cache, d.store⟩ : FBDict V B).cache.length _ hwf1 ht
  cases ht2 with
  | inl hcache =>
      rw [show (pruneCache cfg
          (⟨assocSet k v d.cache, d.store⟩ : FBDict V B).cache.length
          (⟨assocSet k v d.cache, d.store⟩ : FBDict V B)).cache = [] from by
        rw [pruneCache_cache]; exact List.drop_length _] at hcache
      cases hcache
  | inr hstore => exact hstore.2

/-- Witness for the amended C6: setting `k ↦ 5` on an empty collection
leaves the table empty; flushing writes the row `(k, 5, [6])` with the
extra column computed from the value. -/
theorem deferred_extra_column_visibility_witness :
    (setItem cfgW "k" 5 FBDict.empty).store = (FBDict.empty : FBDict Nat Nat).store ∧
    lookupKey "k" (setItem cfgW "k" 5 FBDict.empty).store = none ∧
    lookupKey "k" (flushDict cfgW (setItem cfgW "k" 5 FBDict.empty)).store =
      some (cfgW.serializer 5, cfgW.extraColumns.map (fun f => f 5)) ∧
    (∀ q : List (String × Nat × List Nat) → List (String × Nat × List Nat),
      (sqlQuery cfgW q (setItem cfgW "k" 5 FBDict.empty)).1 =
        q (flushDict cfgW (setItem cfgW "k" 5 FBDict.empty)).store) :=
  deferred_extra_column_visibility cfgW FBDict.empty "k" 5
    ⟨by simp [FBDict.empty], by simp [FBDict.empty]⟩ (by rfl) (by decide)

/-! ## `_SqliteConnectionCache` (C8)

Embeds the reference-counted connection registry (lines 32-81).
Connections are identified by the id they were created with (`nextId`
supplies fresh ids); reference counts are `Int`, as Python integers. -/

/-- State of the singleton `_SqliteConnectionCache`: `_ref_count` and
`_sqlite_connection_cache`, both keyed by filename. -/
structure Registry where
  refCount : List (String × Int)
  conns : List (String × Nat)
  nextId : Nat

/-- The initial, empty registry. -/
def Registry.empty : Registry := ⟨[], [], 0⟩

/-- `get_connection(filename)` (lines 52-69): on a new path, create a fresh
connection and register it with count 0; then increment the count and
return the path's connection.  (The `getD 0` defaults are unreachable: the
path is always registered in both maps at those points.) -/
def getConnection (p : String) (r : Registry) : Nat × Registry :=
  let r1 : Registry :=
    if containsKey p r.refCount then r
    else ⟨assocSet p 0 r.refCount, assocSet p r.nextId r.conns, r.nextId + 1⟩
  let cnt : Int := (lookupKey p r1.refCount).getD 0
  let r2 : Registry := ⟨assocSet p (cnt + 1) r1.refCount, r1.conns, r1.nextId⟩
  ((lookupKey p r2.conns).getD 0, r2)

/-- `drop_connection(filename)` (lines 71-78): decrement the count
(`KeyError`, i.e. `none`, if the path is unknown); when it reaches zero,
close the connection and delete both entries. -/
def dropConnection (p : String) (r : Registry) : Option Registry :=
  match lookupKey p r.refCount with
  | none => none
  | some c =>
      if c - 1 = 0 then
        some ⟨removeKey p r.refCount, removeKey p r.conns, r.nextId⟩
      else some ⟨assocSet p (c - 1) r.refCount, r.conns, r.nextId⟩

/-- Registry states reachable from the initial singleton state. -/
inductive RegReachable : Registry → Prop where
  | empty : RegReachable Registry.empty
  | acquire : ∀ (p : String) {r : Registry},
      RegReachable r → RegReachable (getConnection p r).2
  | release : ∀ (p : String) {r r' : Registry},
      RegReachable r → dropConnection p r = some r' → RegReachable r'

/-- The registry invariant: a path has a reference count entry iff it has a
connection handle (exactly one handle per distinct path, keys distinct in
both maps), and every stored count is at least 1. -/
def RegInv (r : Registry) : Prop :=
  (∀ p, containsKey p r.refCount = containsKey p r.conns) ∧
  (∀ p c, lookupKey p r.refCount = some c → 1 ≤ c) ∧
  (r.refCount.map Prod.fst).Nodup ∧ (r.conns.map Prod.fst).Nodup

theorem containsKey_assocSet_self (k : String) (v : α) (l : List (String × α)) :
    containsKey k (assocSet k v l) = true := by
  simp [containsKey, lookupKey_assocSet_self]

theorem containsKey_assocSet_ne (k k' : String) (hne : k' ≠ k) (v : α)
    (l : List (String × α)) :
    containsKey k (assocSet k' v l) = containsKey k l := by
  simp [containsKey, lookupKey_assocSet_ne k k' hne]

theorem containsKey_removeKey_self (k : String) (l : List (String × α)) :
    containsKey k (removeKey k l) = false := by
  simp [containsKey, lookupKey_removeKey_self]

theorem containsKey_removeKey_ne (k k' : String) (hne : k' ≠ k)
    (l : List (String × α)) :
    containsKey k (removeKey k' l) = containsKey k l := by
  simp [containsKey, lookupKey_removeKey_ne k k' hne]

theorem regInv_getConnection (p : String) (r : Registry) (h : RegInv r) :
    RegInv (getConnection p r).2 := by
  obtain ⟨halign, hcount, hnd1, hnd2⟩ := h
  by_cases hc : containsKey p r.refCount = true
  · -- existing path: only the count changes
    obtain ⟨c, hcv⟩ := Option.isSome_iff_exists.mp (by simpa [containsKey] using hc)
    have hgc : (getConnection p r).2 =
        ⟨assocSet p (c + 1) r.refCount, r.conns, r.nextId⟩ := by
      unfold getConnection
      rw [if_pos hc]
      simp [hcv]
    rw [hgc]
    refine ⟨?_, ?_, nodup_assocSet p _ _ hnd1, hnd2⟩
    · intro q
      by_cases hq : p = q
      · subst hq
        rw [containsKey_assocSet_self, ← halign p, hc]
      · rw [containsKey_assocSet_ne q p hq, halign q]
    · intro q cq hl
      by_cases hq : p = q
      · subst hq
        rw [lookupKey_assocSet_self] at hl
        have hcq : c + 1 = cq := by injection hl
        have := hcount p c hcv
        omega
      · rw [lookupKey_assocSet_ne q p hq] at hl
        exact hcount q cq hl
  · -- new path: both maps gain the entry, count becomes 1
    have hgc : (getConnection p r).2 =
        ⟨assocSet p ((0 : Int) + 1) (assocSet p 0 r.refCount),
          assocSet p r.nextId r.conns, r.nextId + 1⟩ := by
      unfold getConnection
      rw [if_neg hc]
      simp [lookupKey_assocSet_self]
    rw [hgc]
    refine ⟨?_, ?_, nodup_assocSet p _ _ (nodup_assocSet p _ _ hnd1),
      nodup_assocSet p _ _ hnd2⟩
    · intro q
      by_cases hq : p = q
      · subst hq
        rw [containsKey_assocSet_self, containsKey_assocSet_self]
      · rw [containsKey_assocSet_ne q p hq, containsKey_assocSet_ne q p hq,
          containsKey_assocSet_ne q p hq, halign q]
    · intro q cq hl
      by_cases hq : p = q
      · subst hq
        rw [lookupKey_assocSet_self] at hl
        have hcq : (0 : Int) + 1 = cq := by injection hl
        omega
      · rw [lookupKey_assocSet_ne q p hq, lookupKey_assocSet_ne q p hq] at hl
        exact hcount q cq hl

theorem regInv_dropConnection (p : String) (r r' : Registry) (h : RegInv r)
    (hd : dropConnection p r = some r') : RegInv r' := by
  obtain ⟨halign, hcount, hnd1, hnd2⟩ := h
  unfold dropConnection at hd
  cases hl : lookupKey p r.refCount with
  | none => rw [hl] at hd; cases hd
  | some c =>
      rw [hl] at hd
      dsimp only at hd
      by_cases hz : c - 1 = 0
      · rw [if_pos hz] at hd
        simp at hd
        rw [← hd]
        refine ⟨?_, ?_, nodup_removeKey p _ hnd1, nodup_removeKey p _ hnd2⟩
        · intro q
          by_cases hq : p = q
          · subst hq
            rw [containsKey_removeKey_self, containsKey_removeKey_self]
          · rw [containsKey_removeKey_ne q p hq, containsKey_removeKey_ne q p hq,
              halign q]
        · intro q cq hlq
          by_cases hq : p = q
          · subst hq
            rw [lookupKey_removeKey_self] at hlq
            cases hlq
          · rw [lookupKey_removeKey_ne q p hq] at hlq
            exact hcount q cq hlq
      · rw [if_neg hz] at hd
        simp at hd
        rw [← hd]
        refine ⟨?_, ?_, nodup_assocSet p _ _ hnd1, hnd2⟩
        · intro q
          by_cases hq : p = q
          · subst hq
            rw [containsKey_assocSet_self, ← halign p]
            simp [containsKey, hl]
          · rw [containsKey_assocSet_ne q p hq, halign q]
        · intro q cq hlq
          by_cases hq : p = q
          · subst hq
            rw [lookupKey_assocSet_self] at hlq
            have hcq : c - 1 = cq := by injection hlq
            have := hcount p c hl
            omega
          · rw [lookupKey_assocSet_ne q p hq] at hlq
            exact hcount q cq hlq

/-- Every reachable registry state satisfies the invariant. -/
theorem regReachable_inv (r : Registry) (h : RegReachable r) : RegInv r := by
  induction h with
  | empty =>
      refine ⟨fun p => rfl, fun p c hc => ?_, List.nodup_nil, List.nodup_nil⟩
      cases hc
  | acquire p _ ih => exact regInv_getConnection p _ ih
  | release p _ hd ih => exact regInv_dropConnection p _ _ ih hd

theorem getConnection_fresh (p : String) (r : Registry)
    (hc : ¬ (containsKey p r.refCount = true)) :
    getConnection p r = (r.nextId,
      ⟨assocSet p ((0 : Int) + 1) (assocSet p 0 r.refCount),
        assocSet p r.nextId r.conns, r.nextId + 1⟩) := by
  unfold getConnection
  rw [if_neg hc]
  simp [lookupKey_assocSet_self]

theorem getConnection_existing (p : String) (r : Registry) (c : Int)
    (hcv : lookupKey p r.refCount = some c) :
    getConnection p r = ((lookupKey p r.conns).getD 0,
      ⟨assocSet p (c + 1) r.refCount, r.conns, r.nextId⟩) := by
  unfold getConnection
  have hc : containsKey p r.refCount = true := by simp [containsKey, hcv]
  rw [if_pos hc]
  simp [hcv]

theorem dropConnection_dec (p : String) (r : Registry) (c : Int)
    (hl : lookupKey p r.refCount = some c) (hz : ¬ (c - 1 = 0)) :
    dropConnection p r =
      some ⟨assocSet p (c - 1) r.refCount, r.conns, r.nextId⟩ := by
  unfold dropConnection
  rw [hl]
  dsimp only
  rw [if_neg hz]

theorem dropConnection_last (p : String) (r : Registry) (c : Int)
    (hl : lookupKey p r.refCount = some c) (hz : c - 1 = 0) :
    dropConnection p r =
      some ⟨removeKey p r.refCount, removeKey p r.conns, r.nextId⟩ := by
  unfold dropConnection
  rw [hl]
  dsimp only
  rw [if_pos hz]

/-- C8: every reachable registry state has exactly one connection handle
per distinct path (reference-count entries and connection entries cover the
same distinct paths) with every held count at least 1, entries being
removed exactly when the count reaches 0; consequently, acquiring the same
fresh path twice yields the *same* connection, one release keeps the
connection registered, and the second release removes it. -/
theorem connection_registry_semantics (r : Registry) (hr : RegReachable r) :
    RegInv r ∧
    ∀ p, containsKey p r.refCount = false →
      (getConnection p r).1 = (getConnection p (getConnection p r).2).1 ∧
      ∃ r3, dropConnection p (getConnection p (getConnection p r).2).2 = some r3 ∧
        lookupKey p r3.conns = some (getConnection p r).1 ∧
        ∃ r4, dropConnection p r3 = some r4 ∧
          containsKey p r4.refCount = false ∧ containsKey p r4.conns = false := by
  refine ⟨regReachable_inv r hr, ?_⟩
  intro p hfresh
  have hc : ¬ (containsKey p r.refCount = true) := by simp [hfresh]
  have e1 := getConnection_fresh p r hc
  set s1 : Registry := ⟨assocSet p ((0 : Int) + 1) (assocSet p 0 r.refCount),
      assocSet p r.nextId r.conns, r.nextId + 1⟩ with hs1
  have hl1 : lookupKey p s1.refCount = some ((0 : Int) + 1) :=
    lookupKey_assocSet_self p _ _
  have e2 := getConnection_existing p s1 ((0 : Int) + 1) hl1
  have hcn : lookupKey p s1.conns = some r.nextId := lookupKey_assocSet_self p _ _
  set s2 : Registry := ⟨assocSet p ((0 : Int) + 1 + 1) s1.refCount, s1.conns,
      s1.nextId⟩ with hs2
  have hl2 : lookupKey p s2.refCount = some ((0 : Int) + 1 + 1) :=
    lookupKey_assocSet_self p _ _
  have e3 := dropConnection_dec p s2 ((0 : Int) + 1 + 1) hl2 (by norm_num)
  set s3 : Registry := ⟨assocSet p ((0 : Int) + 1 + 1 - 1) s2.refCount, s2.conns,
      s2.nextId⟩ with hs3
  have hl3 : lookupKey p s3.refCount = some ((0 : Int) + 1 + 1 - 1) :=
    lookupKey_assocSet_self p _ _
  have e4 := dropConnection_last p s3 ((0 : Int) + 1 + 1 - 1) hl3 (by norm_num)
  constructor
  · rw [e1]
    dsimp only
    rw [e2]
    dsimp only
    rw [hcn]
    rfl
  · rw [e1]
    dsimp only
    rw [e2]
    dsimp only
    refine ⟨s3, e3, ?_, ?_⟩
    · show lookupKey p s2.conns = some r.nextId
      exact hcn
    · exact ⟨⟨removeKey p s3.refCount, removeKey p s3.conns, s3.nextId⟩, e4,
        containsKey_removeKey_self p _, containsKey_removeKey_self p _⟩

/-- Witness for C8: on the initial registry and the path `f.db`, two
acquisitions return the same connection, the first release keeps it
registered, and the second removes it. -/
theorem connection_registry_semantics_witness :
    (getConnection "f.db" Registry.empty).1 =
      (getConnection "f.db" (getConnection "f.db" Registry.empty).2).1 ∧
    ∃ r3, dropConnection "f.db"
        (getConnection "f.db" (getConnection "f.db" Registry.empty).2).2 = some r3 ∧
      lookupKey "f.db" r3.conns = some (getConnection "f.db" Registry.empty).1 ∧
      ∃ r4, dropConnection "f.db" r3 = some r4 ∧
        containsKey "f.db" r4.refCount = false ∧ containsKey "f.db" r4.conns = false :=
  (connection_registry_semantics Registry.empty RegReachable.empty).2 "f.db" rfl

/-- Witness for C9: on a fresh list over the identity serializer, `append 7`
then `get 0` returns `7`. -/
theorem list_append_index_bounds_witness :
    listGet (mkListCfg (fun v : Nat => v) (fun b : Nat => b) [] none none) 0
        (listAppend (mkListCfg (fun v : Nat => v) (fun b : Nat => b) [] none none)
          7 FBList.new) =
      .ok (7, listAppend (mkListCfg (fun v : Nat => v) (fun b : Nat => b) [] none none)
          7 FBList.new) :=
  (list_append_index_bounds (fun v : Nat => v) (fun b : Nat => b) [] none none 7).1
